import Mathlib

/-!
Verification of the ANP4NLG core: the Neural Process criterion
(`src/anp4nlg/criterions/neural_process.py`) and the encoder modules
(`src/anp4nlg/models/np/encoder.py`, legacy `src/encoder.py`),
shallowly embedded over rational-valued tensors represented as nested lists.

External collaborators (torch distributions, fairseq's metric sink, the model
call) are black boxes: their outputs enter as parameters, and only their
documented interface behaviour is modelled.
-/

/-- Mean of a list of rationals: `tensor.mean()` on a 1-D tensor. -/
def listMean (l : List ℚ) : ℚ := l.sum / l.length

namespace NeuralProcessCriterion

/-- The structured batch object consumed by the criterion:
`sample["net_input"]["src_tokens"]`, `sample["target"]`, `sample["ntokens"]`,
`sample["nsentences"]`. `S` is the (opaque) type of `src_tokens`;
`target` is a (batch, num_target) tensor of category indices. -/
structure NetInput (S : Type) where
  src_tokens : S

structure Sample (S : Type) where
  net_input : NetInput S
  target : List (List ℕ)
  ntokens : ℕ
  nsentences : ℕ

/-- The logging dictionary built by `NeuralProcessCriterion.forward`. -/
structure LoggingOutput where
  loss : ℚ
  ll : ℚ
  kl : ℚ
  ntokens : ℕ
  nsentences : ℕ
  sample_size : ℕ
deriving DecidableEq

/-- `NeuralProcessCriterion._compute_loss`.

`catLogProb logits k` stands for
`torch.distributions.Categorical(logits=logits).log_prob(k)` applied at one
(batch, target) position (a black-box library call), and `klDiv q p` stands for
`torch.distributions.kl.kl_divergence(q, p)`, the analytic pairwise KL
returning a (batch, r_dim) matrix; `D` is the opaque distribution type.
The code sums both over `dim=1` and takes the batch mean:
`log_prob(y_target).sum(dim=1).mean()` and `kl_divergence(..).sum(dim=1).mean()`. -/
def compute_loss {D : Type} (catLogProb : List ℚ → ℕ → ℚ)
    (klDiv : D → D → List (List ℚ))
    (p_y_pred : List (List (List ℚ))) (y_target : List (List ℕ))
    (q_target q_context : D) : ℚ × ℚ :=
  let log_prob := List.zipWith (fun lb yb => List.zipWith catLogProb lb yb) p_y_pred y_target
  let log_likelihood := listMean (log_prob.map List.sum)
  let kl := listMean ((klDiv q_target q_context).map List.sum)
  (log_likelihood, kl)

/-- `NeuralProcessCriterion.forward` (the unused `reduce=True` flag is dropped).
`model` is the black-box model call
`model(src_tokens) -> (p_y_pred, r, q_context, q_target)` with `q_target`
possibly the distinguished absent value (`None`, embedded as `Option`).
Returns `(loss, sample_size, logging_output)`. -/
def forward {S R D : Type} (catLogProb : List ℚ → ℕ → ℚ)
    (klDiv : D → D → List (List ℚ))
    (model : S → List (List (List ℚ)) × R × D × Option D)
    (sample : Sample S) : ℚ × ℕ × LoggingOutput :=
  let sample_size := sample.nsentences
  let src_tokens := sample.net_input.src_tokens
  let y_target := sample.target
  let out := model src_tokens
  let p_y_pred := out.1
  let q_context := out.2.2.1
  let q_target := match out.2.2.2 with
    | none => q_context
    | some q => q
  let lk := compute_loss catLogProb klDiv p_y_pred y_target q_target q_context
  let loss := -lk.1 + lk.2
  (loss, sample_size,
    { loss := loss, ll := -lk.1, kl := lk.2,
      ntokens := sample.ntokens, nsentences := sample.nsentences,
      sample_size := sample_size })

/-- One record of the `logging_outputs` list consumed by `reduce_metrics`:
a dictionary that may lack any of the four fields the reducer reads
(`log.get(key, 0)`). -/
structure LogRecord where
  loss : Option ℚ
  ll : Option ℚ
  kl : Option ℚ
  sample_size : Option ℚ
deriving DecidableEq

instance : Inhabited LogRecord := ⟨⟨none, none, none, none⟩⟩

/-- One call to the black-box sink `metrics.log_scalar(name, value, weight,
round=3)`: the scalar's name, its value, its aggregation weight and the
requested rounding precision. -/
structure LoggedScalar where
  name : String
  value : ℚ
  weight : ℚ
  round_digits : ℕ
deriving DecidableEq

/-- `NeuralProcessCriterion.reduce_metrics`. `ln2` stands for the float
constant `math.log(2)` (a black-box library value). The function sums each of
the four fields with default 0, then logs the three metrics divided by total
sample size and by `ln2`, each tagged with the total sample size and 3-digit
rounding. -/
def reduce_metrics (ln2 : ℚ) (logging_outputs : List LogRecord) :
    List LoggedScalar :=
  let loss_sum := (logging_outputs.map (fun log => log.loss.getD 0)).sum
  let ll_sum := (logging_outputs.map (fun log => log.ll.getD 0)).sum
  let kl_sum := (logging_outputs.map (fun log => log.kl.getD 0)).sum
  let sample_size := (logging_outputs.map (fun log => log.sample_size.getD 0)).sum
  [ { name := "loss", value := loss_sum / sample_size / ln2,
      weight := sample_size, round_digits := 3 },
    { name := "ll", value := ll_sum / sample_size / ln2,
      weight := sample_size, round_digits := 3 },
    { name := "kl", value := kl_sum / sample_size / ln2,
      weight := sample_size, round_digits := 3 } ]

end NeuralProcessCriterion

/-! ### Tensor primitives: torch black boxes and the missing `util.py` -/

/-- A `nn.Linear` layer's parameters: `weight` has shape
(out_features, in_features), `bias` shape (out_features,). -/
structure LinearLayer where
  weight : List (List ℚ)
  bias : List ℚ
deriving DecidableEq

/-- Dot product of two feature vectors. -/
def dotQ (a b : List ℚ) : ℚ := (List.zipWith (· * ·) a b).sum

/-- `nn.Linear` applied to one point's trailing feature vector: `W v + b`.
(All uses below apply it to a vector of the layer's configured input size.) -/
def linearApply (L : LinearLayer) (v : List ℚ) : List ℚ :=
  List.zipWith (fun w b => dotQ w v + b) L.weight L.bias

/-- `nn.ReLU` on a feature vector. -/
def reluVec (v : List ℚ) : List ℚ := v.map (fun a => max a 0)

/-- Splits a flat vector into `d1` consecutive rows of `d2` entries
(row-major unflattening). -/
def chunkRows (d2 : ℕ) : ℕ → List ℚ → List (List ℚ)
  | 0, _ => []
  | d1 + 1, v => v.take d2 :: chunkRows d2 d1 (v.drop d2)

/-- Modelled from the spec: `ReshapeLast` from the repository's `util.py`
(imported by both encoder modules but not present under `src/`): given a
tensor whose last dimension has size `S` and a target shape `(d1, d2)` with
`d1 * d2 = S`, replace the last dimension by the two target dimensions,
preserving element order; fail (the spec's ShapeError) when the product
mismatches. Applied here per point, to the point's trailing vector. -/
def reshapeLast (d1 d2 : ℕ) (v : List ℚ) : Option (List (List ℚ)) :=
  if v.length = d1 * d2 then some (chunkRows d2 d1 v) else none

/-- `torch.cat((x, y), dim=2)` on one batch element: concatenate the feature
vectors of corresponding points; fails when the point counts disagree. -/
def catPoints (xb yb : List (List ℚ)) : Option (List (List ℚ)) :=
  if xb.length = yb.length then some (List.zipWith (· ++ ·) xb yb) else none

/-- `torch.cat((x, y), dim=2)`: fails when batch or point counts disagree. -/
def catDim2 (x y : List (List (List ℚ))) : Option (List (List (List ℚ))) :=
  if x.length = y.length then (List.zipWith catPoints x y).mapM id else none

namespace NP

/-- `Encoder.__init__` (`src/anp4nlg/models/np/encoder.py`), rs_dim
normalization: `rs_dim if isinstance(rs_dim, tuple) else (rs_dim, 1)`. -/
def normRsDim : ℕ ⊕ (ℕ × ℕ) → ℕ × ℕ
  | Sum.inl r => (r, 1)
  | Sum.inr p => p

/-- `MLPEncoder` (`src/anp4nlg/models/np/encoder.py`): the stored
hyperparameters together with the three `nn.Linear` layers of `input_to_rs`
(layer weights are initialized externally, so they enter construction). -/
structure MLPEncoder where
  x_dim : ℕ
  y_dim : ℕ
  rs_dim : ℕ × ℕ
  h_dim : ℕ
  lin1 : LinearLayer
  lin2 : LinearLayer
  lin3 : LinearLayer
deriving DecidableEq

/-- `MLPEncoder.__init__`: `Encoder.__init__` normalizes `rs_dim`; the stack
is `Linear(x_dim+y_dim, h_dim), ReLU, Linear(h_dim, h_dim), ReLU,
Linear(h_dim, np.prod(rs_dim)), ReshapeLast(rs_dim)`. -/
def mkMLPEncoder (x_dim y_dim : ℕ) (rs_dim : ℕ ⊕ (ℕ × ℕ)) (h_dim : ℕ)
    (lin1 lin2 lin3 : LinearLayer) : MLPEncoder :=
  { x_dim := x_dim, y_dim := y_dim, rs_dim := normRsDim rs_dim,
    h_dim := h_dim, lin1 := lin1, lin2 := lin2, lin3 := lin3 }

/-- The `input_to_rs` sequential stack applied to one point's concatenated
feature vector. -/
def MLPEncoder.input_to_rs (e : MLPEncoder) (v : List ℚ) :
    Option (List (List ℚ)) :=
  reshapeLast e.rs_dim.1 e.rs_dim.2
    (linearApply e.lin3 (reluVec (linearApply e.lin2
      (reluVec (linearApply e.lin1 v)))))

/-- `MLPEncoder.forward`: `input = torch.cat((x, y), dim=2);
return self.input_to_rs(input)` — the stack acts pointwise on the trailing
feature axis. -/
def MLPEncoder.forward (e : MLPEncoder) (x y : List (List (List ℚ))) :
    Option (List (List (List (List ℚ)))) := do
  let input ← catDim2 x y
  input.mapM (fun row => row.mapM e.input_to_rs)

/-- The spec's ConfigurationError: invalid encoder hyperparameters, surfaced
at model-construction time. -/
inductive ConfigurationError where
  | embedDimNotDivisible (embed_dim n_heads : ℕ)
deriving DecidableEq

/-- Construction-time data of `AttentionEncoder`. The attention weights
themselves are black boxes; recorded are the stored shape data and the
arguments handed to `nn.MultiheadAttention`. -/
structure AttentionEncoder where
  x_dim : ℕ
  y_dim : ℕ
  rs_dim : ℕ × ℕ
  h_dim : ℕ
  embed_dim : ℕ
  n_attn_heads : ℕ
deriving DecidableEq

/-- `AttentionEncoder.__init__`: normalize `rs_dim`, set
`output_size = np.prod(self.rs_dim)` and `n_attn_heads = self.rs_dim[1]`,
then construct `nn.MultiheadAttention(output_size, n_attn_heads)`. Per the
torch contract that constructor requires a positive head count dividing the
embedding dimension and fails otherwise; that failure is the spec's
ConfigurationError. -/
def mkAttentionEncoder (x_dim y_dim : ℕ) (rs_dim : ℕ ⊕ (ℕ × ℕ)) (h_dim : ℕ) :
    Except ConfigurationError AttentionEncoder :=
  let rs := normRsDim rs_dim
  let output_size := rs.1 * rs.2
  let n_attn_heads := rs.2
  if 0 < n_attn_heads ∧ output_size % n_attn_heads = 0 then
    Except.ok { x_dim := x_dim, y_dim := y_dim, rs_dim := rs, h_dim := h_dim,
                embed_dim := output_size, n_attn_heads := n_attn_heads }
  else
    Except.error
      (ConfigurationError.embedDimNotDivisible output_size n_attn_heads)

end NP

namespace Legacy

/-- `Encoder.__init__` in the legacy `src/encoder.py`:
`r_dim if isinstance(r_dim, tuple) else (r_dim, 1)`. -/
def normRDim : ℕ ⊕ (ℕ × ℕ) → ℕ × ℕ
  | Sum.inl r => (r, 1)
  | Sum.inr p => p

/-- Legacy `MLPEncoder` (`src/encoder.py`): same data as the canonical one,
with the `r_dim` field name. -/
structure MLPEncoder where
  x_dim : ℕ
  y_dim : ℕ
  r_dim : ℕ × ℕ
  h_dim : ℕ
  lin1 : LinearLayer
  lin2 : LinearLayer
  lin3 : LinearLayer
deriving DecidableEq

/-- Legacy `MLPEncoder.__init__`: identical layer stack, stored as
`input_to_r`. -/
def mkMLPEncoder (x_dim y_dim : ℕ) (r_dim : ℕ ⊕ (ℕ × ℕ)) (h_dim : ℕ)
    (lin1 lin2 lin3 : LinearLayer) : MLPEncoder :=
  { x_dim := x_dim, y_dim := y_dim, r_dim := normRDim r_dim,
    h_dim := h_dim, lin1 := lin1, lin2 := lin2, lin3 := lin3 }

/-- The legacy `input_to_r` stack applied to one point's feature vector. -/
def MLPEncoder.input_to_r (e : MLPEncoder) (v : List ℚ) :
    Option (List (List ℚ)) :=
  reshapeLast e.r_dim.1 e.r_dim.2
    (linearApply e.lin3 (reluVec (linearApply e.lin2
      (reluVec (linearApply e.lin1 v)))))

/-- Legacy `MLPEncoder.forward`: textually identical to the canonical one. -/
def MLPEncoder.forward (e : MLPEncoder) (x y : List (List (List ℚ))) :
    Option (List (List (List (List ℚ)))) := do
  let input ← catDim2 x y
  input.mapM (fun row => row.mapM e.input_to_r)

end Legacy

/-- `AttentionEncoder.forward` (`src/anp4nlg/models/np/encoder.py`):
`input = torch.cat((x, y), dim=2).squeeze(-1)`, then
`encoder_input = self.batch_mlp(input).squeeze(-1)`, then
`attn_output = self.attn(encoder_input, encoder_input, encoder_input)[0]`,
then `return self.shaper(attn_output)`.
`squeeze1` and `squeeze2` stand for the two `.squeeze(-1)` calls and `attn`
for the self-attention call `self.attn(q, q, q)[0]` (torch black boxes; the
`nn.MultiheadAttention` forward returns a tensor of the query's shape);
`batch_mlp` is the per-point `Linear(x_dim+y_dim, h_dim), ReLU,
Linear(h_dim, h_dim), ReLU, Linear(h_dim, output_size)` stack with the
construction-time weights `u1 u2 u3`, and `self.shaper` is the same modelled
`ReshapeLast(self.rs_dim)`, applied per point. -/
def NP.AttentionEncoder.forward (a : NP.AttentionEncoder)
    (squeeze1 squeeze2 : List (List (List ℚ)) → List (List (List ℚ)))
    (attn : List (List (List ℚ)) → List (List (List ℚ)))
    (u1 u2 u3 : LinearLayer) (x y : List (List (List ℚ))) :
    Option (List (List (List (List ℚ)))) := do
  let catted ← catDim2 x y
  let input := squeeze1 catted
  let encoder_input := squeeze2 (input.map (fun row => row.map (fun v =>
    linearApply u3 (reluVec (linearApply u2 (reluVec (linearApply u1 v)))))))
  let attn_output := attn encoder_input
  attn_output.mapM (fun row => row.mapM (reshapeLast a.rs_dim.1 a.rs_dim.2))

/-! ### Derived notions used to state the properties -/

/-- Reindexing of a point list by a list of indices; applied with a
permutation of `List.range n` it permutes the `n` points. -/
def permuteBy {α : Type} (d : α) (is : List ℕ) (l : List α) : List α :=
  is.map (fun i => l.getD i d)

/-- The flat (pre-reshape) output of the canonical MLP stack on one point. -/
def NP.MLPEncoder.flatOut (e : NP.MLPEncoder) (v : List ℚ) : List ℚ :=
  linearApply e.lin3 (reluVec (linearApply e.lin2
    (reluVec (linearApply e.lin1 v))))

/-- The per-point result of the canonical MLP stack after the reshape,
when the reshape succeeds. -/
def NP.MLPEncoder.pointCore (e : NP.MLPEncoder) (v : List ℚ) :
    List (List ℚ) :=
  chunkRows e.rs_dim.2 e.rs_dim.1 (e.flatOut v)

/-- The dimension list of a (rectangular) rank-4 output tensor, read off its
leading entries. -/
def shape4 (t : List (List (List (List ℚ)))) : List ℕ :=
  [t.length, (t.getD 0 []).length, ((t.getD 0 []).getD 0 []).length,
    (((t.getD 0 []).getD 0 []).getD 0 []).length]

/-! ### General list lemmas -/

theorem listSum_eq_range_getD (l : List ℚ) :
    l.sum = ∑ i ∈ Finset.range l.length, l.getD i 0 := by
  induction l with
  | nil => simp
  | cons a t ih =>
    rw [List.sum_cons, List.length_cons, Finset.sum_range_succ']
    simp only [List.getD_cons_succ, List.getD_cons_zero]
    rw [← ih]
    ring

theorem getD_map_sum (M : List (List ℚ)) {i : ℕ} (h : i < M.length) :
    (M.map List.sum).getD i 0 = (M.getD i []).sum := by
  have h' : i < (M.map List.sum).length := by simpa using h
  rw [List.getD_eq_getElem _ _ h', List.getD_eq_getElem _ _ h, List.getElem_map]

theorem getD_zipWith {α β γ : Type} (f : α → β → γ) (a : List α) (b : List β)
    (da : α) (db : β) (dc : γ) {i : ℕ} (ha : i < a.length) (hb : i < b.length) :
    (List.zipWith f a b).getD i dc = f (a.getD i da) (b.getD i db) := by
  have h' : i < (List.zipWith f a b).length := by
    rw [List.length_zipWith]; exact lt_min ha hb
  rw [List.getD_eq_getElem _ _ h', List.getD_eq_getElem _ _ ha,
    List.getD_eq_getElem _ _ hb, List.getElem_zipWith]

/-- C1: for every sample and model output, `NeuralProcessCriterion.forward`
returns the triple `(loss, sample_size, logging_record)` in which
`loss = -log_likelihood + kl`, `sample_size` is the sample's declared
`nsentences`, and the logging record maps `loss` to that loss, `ll` to the
negated log-likelihood, `kl` to the KL term, and carries `ntokens`,
`nsentences` and `sample_size` from the sample. -/
theorem forward_returns_loss_triple {S R D : Type}
    (catLogProb : List ℚ → ℕ → ℚ) (klDiv : D → D → List (List ℚ))
    (model : S → List (List (List ℚ)) × R × D × Option D)
    (sample : NeuralProcessCriterion.Sample S)
    (p_y_pred : List (List (List ℚ))) (r : R) (q_context : D)
    (qt : Option D)
    (hm : model sample.net_input.src_tokens = (p_y_pred, r, q_context, qt)) :
    NeuralProcessCriterion.forward catLogProb klDiv model sample =
      (let lk := NeuralProcessCriterion.compute_loss catLogProb klDiv p_y_pred
        sample.target (qt.getD q_context) q_context
      (-lk.1 + lk.2, sample.nsentences,
        { loss := -lk.1 + lk.2, ll := -lk.1, kl := lk.2,
          ntokens := sample.ntokens, nsentences := sample.nsentences,
          sample_size := sample.nsentences })) := by
  cases qt <;> simp [NeuralProcessCriterion.forward, hm]

theorem forward_returns_loss_triple_witness :
    NeuralProcessCriterion.forward (fun l k => l.getD k 0)
      (fun _ _ : Unit => [[1]])
      (fun _ : Unit => ([[[1, 2]]], (), (), (none : Option Unit)))
      ⟨⟨()⟩, [[0]], 5, 7⟩ =
      (0, 7, { loss := 0, ll := -1, kl := 1, ntokens := 5, nsentences := 7,
               sample_size := 7 }) :=
  (forward_returns_loss_triple (fun l k => l.getD k 0)
    (fun _ _ : Unit => [[1]])
    (fun _ : Unit => ([[[1, 2]]], (), (), (none : Option Unit)))
    ⟨⟨()⟩, [[0]], 5, 7⟩ [[[1, 2]]] () () none rfl).trans (by
      norm_num [NeuralProcessCriterion.compute_loss, listMean])

/-- C2: the `kl` component computed by `_compute_loss` is the pairwise
analytic KL divergence applied with `q_target` as first (posterior) operand
and `q_context` as second (prior) operand, summed over the latent-dimension
axis and then averaged over the batch axis, yielding a scalar. -/
theorem compute_loss_kl_direction {D : Type}
    (catLogProb : List ℚ → ℕ → ℚ) (klDiv : D → D → List (List ℚ))
    (p_y_pred : List (List (List ℚ))) (y_target : List (List ℕ))
    (q_target q_context : D) :
    (NeuralProcessCriterion.compute_loss catLogProb klDiv p_y_pred y_target
        q_target q_context).2 =
      (∑ b ∈ Finset.range (klDiv q_target q_context).length,
        ∑ i ∈ Finset.range ((klDiv q_target q_context).getD b []).length,
          ((klDiv q_target q_context).getD b []).getD i 0) /
        ((klDiv q_target q_context).length : ℚ) := by
  simp only [NeuralProcessCriterion.compute_loss, listMean]
  rw [listSum_eq_range_getD]
  simp only [List.length_map]
  congr 1
  refine Finset.sum_congr rfl (fun b hb => ?_)
  rw [getD_map_sum _ (Finset.mem_range.1 hb), listSum_eq_range_getD]

/-- C3: the `log_likelihood` computed by `_compute_loss` is the categorical
log-probability of `y_target` under the logits `p_y_pred`, summed over the
target-count axis and then averaged over the batch axis, yielding a scalar
(stated for matching batch and target-count dimensions). -/
theorem compute_loss_ll_sum_mean {D : Type}
    (catLogProb : List ℚ → ℕ → ℚ) (klDiv : D → D → List (List ℚ))
    (p_y_pred : List (List (List ℚ))) (y_target : List (List ℕ))
    (q_target q_context : D)
    (hb : p_y_pred.length = y_target.length)
    (hrow : ∀ i < y_target.length,
      (p_y_pred.getD i []).length = (y_target.getD i []).length) :
    (NeuralProcessCriterion.compute_loss catLogProb klDiv p_y_pred y_target
        q_target q_context).1 =
      (∑ b ∈ Finset.range y_target.length,
        ∑ t ∈ Finset.range (y_target.getD b []).length,
          catLogProb ((p_y_pred.getD b []).getD t [])
            ((y_target.getD b []).getD t 0)) /
        (y_target.length : ℚ) := by
  simp only [NeuralProcessCriterion.compute_loss, listMean]
  have hL : (List.zipWith (fun lb yb => List.zipWith catLogProb lb yb)
      p_y_pred y_target).length = y_target.length := by
    rw [List.length_zipWith, hb, min_self]
  rw [listSum_eq_range_getD]
  simp only [List.length_map, hL]
  congr 1
  refine Finset.sum_congr rfl (fun b hbm => ?_)
  have hby : b < y_target.length := Finset.mem_range.1 hbm
  have hbp : b < p_y_pred.length := hb ▸ hby
  rw [getD_map_sum _ (by rw [hL]; exact hby),
    getD_zipWith _ _ _ [] [] [] hbp hby, listSum_eq_range_getD]
  have hin : (List.zipWith catLogProb (p_y_pred.getD b [])
      (y_target.getD b [])).length = (y_target.getD b []).length := by
    rw [List.length_zipWith, hrow b hby, min_self]
  rw [hin]
  refine Finset.sum_congr rfl (fun t ht => ?_)
  have hty : t < (y_target.getD b []).length := Finset.mem_range.1 ht
  have htp : t < (p_y_pred.getD b []).length := by rw [hrow b hby]; exact hty
  exact getD_zipWith _ _ _ [] 0 0 htp hty

theorem compute_loss_ll_sum_mean_witness :
    (NeuralProcessCriterion.compute_loss (fun l k => l.getD k 0)
      (fun _ _ : Unit => ([] : List (List ℚ)))
      [[[3, 4], [5, 6]]] [[1, 0]] () ()).1 = 9 :=
  (compute_loss_ll_sum_mean (fun l k => l.getD k 0)
    (fun _ _ : Unit => ([] : List (List ℚ))) [[[3, 4], [5, 6]]] [[1, 0]] () ()
    rfl (by intro i hi; obtain rfl := Nat.lt_one_iff.1 hi; rfl)).trans
    (by norm_num [Finset.sum_range_succ])

/-- C4: when the model call returns the distinguished absent value for
`q_target`, `forward` returns a triple identical to the one returned when the
model instead returns `q_target = q_context`, all other outputs equal. -/
theorem forward_absent_qtarget_eq {S R D : Type}
    (catLogProb : List ℚ → ℕ → ℚ) (klDiv : D → D → List (List ℚ))
    (model1 model2 : S → List (List (List ℚ)) × R × D × Option D)
    (sample : NeuralProcessCriterion.Sample S)
    (p_y_pred : List (List (List ℚ))) (r : R) (q_context : D)
    (h1 : model1 sample.net_input.src_tokens = (p_y_pred, r, q_context, none))
    (h2 : model2 sample.net_input.src_tokens =
      (p_y_pred, r, q_context, some q_context)) :
    NeuralProcessCriterion.forward catLogProb klDiv model1 sample =
      NeuralProcessCriterion.forward catLogProb klDiv model2 sample := by
  simp [NeuralProcessCriterion.forward, h1, h2]

theorem forward_absent_qtarget_eq_witness :
    NeuralProcessCriterion.forward (fun l k => l.getD k 0)
      (fun _ _ : Unit => [[1]])
      (fun _ : Unit => ([[[1, 2]]], (), (), (none : Option Unit)))
      ⟨⟨()⟩, [[0]], 5, 7⟩ =
    NeuralProcessCriterion.forward (fun l k => l.getD k 0)
      (fun _ _ : Unit => [[1]])
      (fun _ : Unit => ([[[1, 2]]], (), (), (some () : Option Unit)))
      ⟨⟨()⟩, [[0]], 5, 7⟩ :=
  forward_absent_qtarget_eq (fun l k => l.getD k 0) (fun _ _ : Unit => [[1]])
    _ _ ⟨⟨()⟩, [[0]], 5, 7⟩ [[[1, 2]]] () () rfl rfl

theorem getD_map_of_lt {α β : Type} (f : α → β) (l : List α) (d : β) (da : α)
    {i : ℕ} (h : i < l.length) : (l.map f).getD i d = f (l.getD i da) := by
  have h' : i < (l.map f).length := by simpa using h
  rw [List.getD_eq_getElem _ _ h', List.getD_eq_getElem _ _ h, List.getElem_map]

theorem mapSum_eq_range {α : Type} (f : α → ℚ) (l : List α) (da : α) :
    (l.map f).sum = ∑ i ∈ Finset.range l.length, f (l.getD i da) := by
  rw [listSum_eq_range_getD]
  simp only [List.length_map]
  exact Finset.sum_congr rfl fun i hi =>
    getD_map_of_lt f l 0 da (Finset.mem_range.1 hi)

/-- C5: for every non-empty sequence of logging records with positive total
sample size, `reduce_metrics` sums the `loss`, `ll`, `kl` and `sample_size`
fields independently (a record missing a field contributes zero), divides
each of the three summed metrics by the total sample size and by `ln 2`, and
emits each as a scalar with 3-digit rounding, tagged with the total sample
size as its weight. -/
theorem reduce_metrics_sums_and_normalizes (ln2 : ℚ)
    (logs : List NeuralProcessCriterion.LogRecord)
    (hne : logs ≠ [])
    (hpos : 0 < ∑ i ∈ Finset.range logs.length,
      ((logs.getD i default).sample_size.getD 0)) :
    NeuralProcessCriterion.reduce_metrics ln2 logs =
      (let S := ∑ i ∈ Finset.range logs.length,
        ((logs.getD i default).sample_size.getD 0)
      [ { name := "loss",
          value := (∑ i ∈ Finset.range logs.length,
            ((logs.getD i default).loss.getD 0)) / S / ln2,
          weight := S, round_digits := 3 },
        { name := "ll",
          value := (∑ i ∈ Finset.range logs.length,
            ((logs.getD i default).ll.getD 0)) / S / ln2,
          weight := S, round_digits := 3 },
        { name := "kl",
          value := (∑ i ∈ Finset.range logs.length,
            ((logs.getD i default).kl.getD 0)) / S / ln2,
          weight := S, round_digits := 3 } ]) := by
  simp only [NeuralProcessCriterion.reduce_metrics]
  rw [mapSum_eq_range (fun log => log.loss.getD 0) logs default,
    mapSum_eq_range (fun log => log.ll.getD 0) logs default,
    mapSum_eq_range (fun log => log.kl.getD 0) logs default,
    mapSum_eq_range (fun log => log.sample_size.getD 0) logs default]

theorem reduce_metrics_sums_and_normalizes_witness :
    NeuralProcessCriterion.reduce_metrics 2
      [{ loss := some 2, ll := some 4, kl := some 6, sample_size := some 2 }] =
      [ { name := "loss", value := 1/2, weight := 2, round_digits := 3 },
        { name := "ll", value := 1, weight := 2, round_digits := 3 },
        { name := "kl", value := 3/2, weight := 2, round_digits := 3 } ] :=
  (reduce_metrics_sums_and_normalizes 2
    [{ loss := some 2, ll := some 4, kl := some 6, sample_size := some 2 }]
    (by simp) (by norm_num [Finset.sum_range_succ])).trans
    (by norm_num [Finset.sum_range_succ])

/-! ### Encoder stack lemmas -/

theorem zipWith_map_same {α β γ δ : Type} (h : β → γ → δ) (f : α → β)
    (g : α → γ) (l : List α) :
    List.zipWith h (l.map f) (l.map g) = l.map (fun a => h (f a) (g a)) := by
  induction l with
  | nil => rfl
  | cons a t ih => simp [ih]

theorem zipWith_congr_of_mem {α β γ : Type} (f g : α → β → γ) :
    ∀ (x : List α) (y : List β), (∀ a ∈ x, ∀ b ∈ y, f a b = g a b) →
      List.zipWith f x y = List.zipWith g x y := by
  intro x
  induction x with
  | nil => intro y h; rfl
  | cons a xs ih =>
    intro y h
    cases y with
    | nil => rfl
    | cons b ys =>
      rw [List.zipWith_cons_cons, List.zipWith_cons_cons,
        h a (List.mem_cons_self a xs) b (List.mem_cons_self b ys),
        ih ys (fun u hu v hv =>
          h u (List.mem_cons_of_mem _ hu) v (List.mem_cons_of_mem _ hv))]

theorem mem_zipWith_imp {α β γ : Type} (f : α → β → γ) (P : γ → Prop) :
    ∀ (x : List α) (y : List β), (∀ a ∈ x, ∀ b ∈ y, P (f a b)) →
      ∀ c ∈ List.zipWith f x y, P c := by
  intro x
  induction x with
  | nil => intro y h c hc; simp at hc
  | cons a xs ih =>
    intro y h c hc
    cases y with
    | nil => simp at hc
    | cons b ys =>
      rw [List.zipWith_cons_cons] at hc
      rcases List.mem_cons.1 hc with rfl | hc
      · exact h a (List.mem_cons_self a xs) b (List.mem_cons_self b ys)
      · exact ih ys (fun u hu v hv =>
          h u (List.mem_cons_of_mem _ hu) v (List.mem_cons_of_mem _ hv)) c hc

theorem mapM_eq_some_map {α β : Type} (f : α → Option β) (g : α → β) :
    ∀ (l : List α), (∀ a ∈ l, f a = some (g a)) → l.mapM f = some (l.map g) := by
  intro l
  induction l with
  | nil => intro _; rfl
  | cons a t ih =>
    intro h
    rw [List.mapM_cons, h a (List.mem_cons_self a t),
      ih (fun u hu => h u (List.mem_cons_of_mem _ hu))]
    rfl

theorem mapM_some_mem {α β : Type} (f : α → Option β) :
    ∀ (l : List α) (bs : List β), l.mapM f = some bs →
      ∀ b ∈ bs, ∃ a ∈ l, f a = some b := by
  intro l
  induction l with
  | nil =>
    intro bs h b hb
    rw [List.mapM_nil] at h
    obtain rfl : ([] : List β) = bs := Option.some.inj h
    simp at hb
  | cons a t ih =>
    intro bs h b hb
    rw [List.mapM_cons] at h
    cases hfa : f a with
    | none => rw [hfa] at h; simp at h
    | some v =>
      rw [hfa] at h
      cases hmt : t.mapM f with
      | none => rw [hmt] at h; simp at h
      | some vs =>
        rw [hmt] at h
        obtain rfl : v :: vs = bs := by simpa using h
        rcases List.mem_cons.1 hb with rfl | hb
        · exact ⟨a, List.mem_cons_self a t, hfa⟩
        · obtain ⟨u, hu, hfu⟩ := ih vs hmt b hb
          exact ⟨u, List.mem_cons_of_mem _ hu, hfu⟩

theorem length_linearApply (L : LinearLayer) (v : List ℚ) :
    (linearApply L v).length = L.weight.length ⊓ L.bias.length := by
  simp [linearApply, List.length_zipWith]

theorem chunkRows_length (d2 d1 : ℕ) : ∀ v, (chunkRows d2 d1 v).length = d1 := by
  induction d1 with
  | zero => intro v; rfl
  | succ n ih => intro v; simp [chunkRows, ih]

theorem chunkRows_row_length (d2 : ℕ) :
    ∀ (d1 : ℕ) (v : List ℚ), v.length = d1 * d2 →
      ∀ r ∈ chunkRows d2 d1 v, r.length = d2 := by
  intro d1
  induction d1 with
  | zero => intro v hv r hr; simp [chunkRows] at hr
  | succ n ih =>
    intro v hv r hr
    simp only [chunkRows] at hr
    rcases List.mem_cons.1 hr with rfl | hr
    · rw [List.length_take, hv]
      exact min_eq_left (by rw [Nat.succ_mul]; exact Nat.le_add_left d2 (n * d2))
    · refine ih (v.drop d2) ?_ r hr
      rw [List.length_drop, hv, Nat.succ_mul]
      exact Nat.add_sub_cancel (n * d2) d2

theorem reshapeLast_some_shape (d1 d2 : ℕ) (v : List ℚ) (p : List (List ℚ))
    (h : reshapeLast d1 d2 v = some p) :
    p.length = d1 ∧ ∀ q ∈ p, q.length = d2 := by
  rw [reshapeLast.eq_def] at h
  by_cases hl : v.length = d1 * d2
  · rw [if_pos hl] at h
    obtain rfl := Option.some.inj h
    exact ⟨chunkRows_length d2 d1 v, fun q hq =>
      chunkRows_row_length d2 d1 v hl q hq⟩
  · rw [if_neg hl] at h
    exact absurd h (by simp)

theorem flatOut_length (e : NP.MLPEncoder) (v : List ℚ) :
    (e.flatOut v).length = e.lin3.weight.length ⊓ e.lin3.bias.length := by
  simp [NP.MLPEncoder.flatOut, length_linearApply]

theorem input_to_rs_eq_some (e : NP.MLPEncoder)
    (h3 : e.lin3.weight.length ⊓ e.lin3.bias.length = e.rs_dim.1 * e.rs_dim.2)
    (v : List ℚ) : e.input_to_rs v = some (e.pointCore v) := by
  have hl : (e.flatOut v).length = e.rs_dim.1 * e.rs_dim.2 :=
    (flatOut_length e v).trans h3
  show reshapeLast e.rs_dim.1 e.rs_dim.2 (e.flatOut v) = some (e.pointCore v)
  rw [reshapeLast.eq_def, if_pos hl]
  rfl

theorem zipCat_mapM (x y : List (List (List ℚ)))
    (h : List.Forall₂ (fun (xb yb : List (List ℚ)) =>
      xb.length = yb.length) x y) :
    (List.zipWith catPoints x y).mapM id =
      some (List.zipWith (fun xb yb => List.zipWith (· ++ ·) xb yb) x y) := by
  induction h with
  | nil => rfl
  | cons hab hrest ih =>
    rw [List.zipWith_cons_cons, List.mapM_cons]
    rw [show catPoints _ _ = some _ from by
      rw [catPoints.eq_def, if_pos hab]]
    rw [show List.mapM id (List.zipWith catPoints _ _) = some _ from ih]
    rfl

theorem catDim2_eq_some (x y : List (List (List ℚ)))
    (h : List.Forall₂ (fun (xb yb : List (List ℚ)) =>
      xb.length = yb.length) x y) :
    catDim2 x y =
      some (List.zipWith (fun xb yb => List.zipWith (· ++ ·) xb yb) x y) := by
  rw [catDim2.eq_def, if_pos h.length_eq, zipCat_mapM x y h]

theorem forward_eq_some (e : NP.MLPEncoder)
    (h3 : e.lin3.weight.length ⊓ e.lin3.bias.length = e.rs_dim.1 * e.rs_dim.2)
    (x y : List (List (List ℚ)))
    (h : List.Forall₂ (fun (xb yb : List (List ℚ)) =>
      xb.length = yb.length) x y) :
    e.forward x y =
      some ((List.zipWith (fun xb yb => List.zipWith (· ++ ·) xb yb) x y).map
        (fun row => row.map e.pointCore)) := by
  show (catDim2 x y).bind
      (fun input => input.mapM (fun row => row.mapM e.input_to_rs)) = _
  rw [catDim2_eq_some x y h, Option.some_bind]
  exact mapM_eq_some_map _ _ _
    (fun row _ => mapM_eq_some_map _ _ row
      (fun v _ => input_to_rs_eq_some e h3 v))

/-- C6: `MLPEncoder.forward` is permutation-equivariant over points: for
inputs sharing batch and point-count dimensions, applying a permutation of
the `n` points identically to `x` and `y` along the point axis yields the
original output with the same permutation applied along its point axis
(stated for encoders whose output layer matches the reshape target, which
construction via `nn.Linear(h_dim, prod(rs_dim))` guarantees). -/
theorem mlp_forward_permutation_equivariant (e : NP.MLPEncoder) (n : ℕ)
    (x y : List (List (List ℚ))) (is : List ℕ)
    (h3 : e.lin3.weight.length ⊓ e.lin3.bias.length = e.rs_dim.1 * e.rs_dim.2)
    (hxy : x.length = y.length)
    (hx : ∀ xb ∈ x, xb.length = n) (hy : ∀ yb ∈ y, yb.length = n)
    (hperm : is.Perm (List.range n)) :
    e.forward (x.map (permuteBy [] is)) (y.map (permuteBy [] is)) =
      Option.map (List.map (permuteBy [] is)) (e.forward x y) := by
  have hbound : ∀ i ∈ is, i < n := fun i hi =>
    List.mem_range.1 (hperm.mem_iff.1 hi)
  have hf : List.Forall₂ (fun (xb yb : List (List ℚ)) =>
      xb.length = yb.length) x y := by
    rw [List.forall₂_iff_get]
    exact ⟨hxy, fun i h1 h2 => by
      rw [hx _ (List.get_mem x i h1), hy _ (List.get_mem y i h2)]⟩
  have hf' : List.Forall₂ (fun (xb yb : List (List ℚ)) =>
      xb.length = yb.length)
      (x.map (permuteBy [] is)) (y.map (permuteBy [] is)) := by
    rw [List.forall₂_iff_get]
    constructor
    · simp [hxy]
    · intro i h1 h2
      simp [permuteBy]
  rw [forward_eq_some e h3 _ _ hf', forward_eq_some e h3 x y hf,
    Option.map_some']
  congr 1
  rw [List.map_map, List.zipWith_map, List.map_zipWith, List.map_zipWith]
  refine zipWith_congr_of_mem _ _ x y (fun xb hxb yb hyb => ?_)
  simp only [permuteBy, zipWith_map_same, List.map_map, Function.comp]
  refine List.map_congr_left (fun i hi => ?_)
  have hin : i < n := hbound i hi
  have hlen : i < (List.zipWith (· ++ ·) xb yb).length := by
    rw [List.length_zipWith, hx xb hxb, hy yb hyb, min_self]; exact hin
  rw [getD_map_of_lt e.pointCore _ [] [] hlen,
    getD_zipWith (· ++ ·) xb yb [] [] []
      (by rw [hx xb hxb]; exact hin) (by rw [hy yb hyb]; exact hin)]
  rfl

theorem mlp_forward_permutation_equivariant_witness :
    ([1, 0] : List ℕ).Perm (List.range 2) ∧
    (NP.mkMLPEncoder 1 1 (Sum.inl 2) 1 ⟨[[1]], [0]⟩ ⟨[[1]], [0]⟩
        ⟨[[1], [2]], [0, 0]⟩).forward
        ([[[1], [2]]].map (permuteBy [] [1, 0]))
        ([[[3], [4]]].map (permuteBy [] [1, 0])) =
      Option.map (List.map (permuteBy [] [1, 0]))
        ((NP.mkMLPEncoder 1 1 (Sum.inl 2) 1 ⟨[[1]], [0]⟩ ⟨[[1]], [0]⟩
          ⟨[[1], [2]], [0, 0]⟩).forward [[[1], [2]]] [[[3], [4]]]) :=
  ⟨by decide,
    mlp_forward_permutation_equivariant
      (NP.mkMLPEncoder 1 1 (Sum.inl 2) 1 ⟨[[1]], [0]⟩ ⟨[[1]], [0]⟩
        ⟨[[1], [2]], [0, 0]⟩) 2 [[[1], [2]]] [[[3], [4]]] [1, 0]
      (by decide) rfl (by decide) (by decide) (by decide)⟩

/-- C7 counterexample: constructing an `AttentionEncoder` with
`rs_dim = (3, 2)` — parameter_dim 3 NOT divisible by num_heads 2 —
nevertheless succeeds, because the embedding dimension handed to
`nn.MultiheadAttention` is `np.prod(rs_dim) = 3 * 2 = 6`, which 2 divides.
So construction does not fail exactly when parameter_dim is not divisible by
num_heads. -/
theorem attention_encoder_nondivisible_constructs :
    (NP.mkAttentionEncoder 1 1 (Sum.inr (3, 2)) 4).isOk = true ∧
      ¬ (3 % 2 = 0) := by decide

/-- C7 amended: `AttentionEncoder` construction succeeds if and only if
`num_heads` is positive: the divisibility requirement of
`nn.MultiheadAttention` is applied to `embed_dim = parameter_dim * num_heads`,
which `num_heads` always divides, so divisibility of `parameter_dim` by
`num_heads` is irrelevant and no ConfigurationError is raised for it
(at construction time or later). -/
theorem attention_encoder_ok_iff
    (x_dim y_dim parameter_dim num_heads h_dim : ℕ) :
    (NP.mkAttentionEncoder x_dim y_dim (Sum.inr (parameter_dim, num_heads))
        h_dim).isOk = true ↔ 0 < num_heads := by
  by_cases h : 0 < num_heads
  · simp [NP.mkAttentionEncoder, NP.normRsDim, h, Nat.mul_mod_left,
      Except.isOk, Except.toBool]
  · simp [NP.mkAttentionEncoder, NP.normRsDim, h, Except.isOk, Except.toBool]

/-- C9: the legacy `MLPEncoder` of `src/encoder.py` and the canonical
`MLPEncoder` of `src/anp4nlg/models/np/encoder.py` compute the same function:
constructed with the same hyperparameters and identical layer weights, their
forward outputs are equal on every pair of input tensors. -/
theorem legacy_np_mlp_encoders_agree (x_dim y_dim : ℕ) (rdim : ℕ ⊕ (ℕ × ℕ))
    (h_dim : ℕ) (w1 w2 w3 : LinearLayer) (x y : List (List (List ℚ))) :
    (Legacy.mkMLPEncoder x_dim y_dim rdim h_dim w1 w2 w3).forward x y =
      (NP.mkMLPEncoder x_dim y_dim rdim h_dim w1 w2 w3).forward x y := by
  cases rdim <;> rfl

/-- C8 amended: with `rs_dim` given as the plain integer 8, the encoder stores
`(8, 1)` and the reshaper therefore emits two trailing dimensions: on x of
shape (4, 5, 2) and y of shape (4, 5, 1) the output shape is (4, 5, 8, 1),
not (4, 5, 8). Stated for output layers with 8 output features, as built by
`nn.Linear(h_dim, np.prod((8, 1)))`. -/
theorem mlp_encoder_scenario_output_shape (h_dim : ℕ) (w1 w2 w3 : LinearLayer)
    (x y : List (List (List ℚ)))
    (h3 : w3.weight.length ⊓ w3.bias.length = 8)
    (hx4 : x.length = 4) (hy4 : y.length = 4)
    (hx5 : ∀ xb ∈ x, xb.length = 5) (hy5 : ∀ yb ∈ y, yb.length = 5) :
    ∃ t, (NP.mkMLPEncoder 2 1 (Sum.inl 8) h_dim w1 w2 w3).forward x y = some t
      ∧ t.length = 4
      ∧ ∀ br ∈ t, br.length = 5
          ∧ ∀ p ∈ br, p.length = 8 ∧ ∀ q ∈ p, q.length = 1 := by
  set e := NP.mkMLPEncoder 2 1 (Sum.inl 8) h_dim w1 w2 w3 with he
  have h3' : e.lin3.weight.length ⊓ e.lin3.bias.length =
      e.rs_dim.1 * e.rs_dim.2 := by
    show w3.weight.length ⊓ w3.bias.length = 8 * 1
    rw [Nat.mul_one]; exact h3
  have hf : List.Forall₂ (fun (xb yb : List (List ℚ)) =>
      xb.length = yb.length) x y := by
    rw [List.forall₂_iff_get]
    exact ⟨hx4.trans hy4.symm, fun i h1 h2 => by
      rw [hx5 _ (List.get_mem x i h1), hy5 _ (List.get_mem y i h2)]⟩
  refine ⟨_, forward_eq_some e h3' x y hf, ?_, ?_⟩
  · rw [List.length_map, List.length_zipWith, hx4, hy4]
    exact min_self 4
  · intro br hbr
    rcases List.mem_map.1 hbr with ⟨row, hrow, rfl⟩
    have hrl : row.length = 5 := mem_zipWith_imp _ (fun r => r.length = 5) x y
      (fun a ha b hb => by
        show (List.zipWith (· ++ ·) a b).length = 5
        rw [List.length_zipWith, hx5 a ha, hy5 b hb, min_self]) row hrow
    refine ⟨by rw [List.length_map, hrl], ?_⟩
    intro p hp
    rcases List.mem_map.1 hp with ⟨v, hv, rfl⟩
    have hfl : (e.flatOut v).length = 8 := (flatOut_length e v).trans h3
    exact ⟨chunkRows_length 1 8 (e.flatOut v), fun q hq =>
      chunkRows_row_length 1 8 (e.flatOut v)
        (by rw [Nat.mul_one]; exact hfl) q hq⟩

theorem mlp_encoder_scenario_output_shape_witness :
    ∃ t, (NP.mkMLPEncoder 2 1 (Sum.inl 8) 1 ⟨[[0, 0, 0]], [0]⟩ ⟨[[0]], [0]⟩
        ⟨List.replicate 8 [0], List.replicate 8 0⟩).forward
        (List.replicate 4 (List.replicate 5 [0, 0]))
        (List.replicate 4 (List.replicate 5 [0])) = some t
      ∧ t.length = 4
      ∧ ∀ br ∈ t, br.length = 5
          ∧ ∀ p ∈ br, p.length = 8 ∧ ∀ q ∈ p, q.length = 1 :=
  mlp_encoder_scenario_output_shape 1 ⟨[[0, 0, 0]], [0]⟩ ⟨[[0]], [0]⟩
    ⟨List.replicate 8 [0], List.replicate 8 0⟩
    (List.replicate 4 (List.replicate 5 [0, 0]))
    (List.replicate 4 (List.replicate 5 [0]))
    (by decide) (by decide) (by decide) (by decide) (by decide)

/-- C8 counterexample: on the spec's end-to-end scenario (batch 4, 5 points,
x_dim 2, y_dim 1, rs_dim the integer 8) the output dimension list is
[4, 5, 8, 1], not the claimed [4, 5, 8]: the integer rs_dim is normalized to
the pair (8, 1) and the reshaper produces two trailing dimensions. -/
theorem mlp_encoder_scenario_shape_counterexample :
    Option.map shape4
      ((NP.mkMLPEncoder 2 1 (Sum.inl 8) 1 ⟨[[0, 0, 0]], [0]⟩ ⟨[[0]], [0]⟩
        ⟨List.replicate 8 [0], List.replicate 8 0⟩).forward
        (List.replicate 4 (List.replicate 5 [0, 0]))
        (List.replicate 4 (List.replicate 5 [0]))) = some [4, 5, 8, 1]
    ∧ Option.map shape4
      ((NP.mkMLPEncoder 2 1 (Sum.inl 8) 1 ⟨[[0, 0, 0]], [0]⟩ ⟨[[0]], [0]⟩
        ⟨List.replicate 8 [0], List.replicate 8 0⟩).forward
        (List.replicate 4 (List.replicate 5 [0, 0]))
        (List.replicate 4 (List.replicate 5 [0]))) ≠ some [4, 5, 8] := by
  decide

/-- C10: an encoder given a plain integer `r` as rs_dim stores the pair
`(r, 1)`; consequently every successful forward output — of the MLP encoder
and of the attention encoder alike, both ending in `ReshapeLast(rs_dim)` —
carries exactly two trailing representation dimensions (each point an
`r × 1` matrix), and an `AttentionEncoder` built with an integer rs_dim uses
exactly one attention head. -/
theorem integer_rs_dim_normalization (x_dim y_dim r h_dim : ℕ)
    (w1 w2 w3 : LinearLayer) :
    (NP.mkMLPEncoder x_dim y_dim (Sum.inl r) h_dim w1 w2 w3).rs_dim = (r, 1)
    ∧ (∀ a, NP.mkAttentionEncoder x_dim y_dim (Sum.inl r) h_dim =
        Except.ok a → a.n_attn_heads = 1 ∧ a.rs_dim = (r, 1))
    ∧ (∀ x y t,
        (NP.mkMLPEncoder x_dim y_dim (Sum.inl r) h_dim w1 w2 w3).forward x y
          = some t →
        ∀ br ∈ t, ∀ p ∈ br, p.length = r ∧ ∀ q ∈ p, q.length = 1)
    ∧ (∀ a, NP.mkAttentionEncoder x_dim y_dim (Sum.inl r) h_dim =
        Except.ok a →
        ∀ squeeze1 squeeze2 attn u1 u2 u3 x y t,
          NP.AttentionEncoder.forward a squeeze1 squeeze2 attn u1 u2 u3 x y
            = some t →
          ∀ br ∈ t, ∀ p ∈ br, p.length = r ∧ ∀ q ∈ p, q.length = 1) := by
  have hmk : NP.mkAttentionEncoder x_dim y_dim (Sum.inl r) h_dim =
      Except.ok ⟨x_dim, y_dim, (r, 1), h_dim, r * 1, 1⟩ := by
    simp only [NP.mkAttentionEncoder, NP.normRsDim]
    rw [if_pos ⟨Nat.one_pos, Nat.mod_one (r * 1)⟩]
  refine ⟨rfl, ?_, ?_, ?_⟩
  · intro a ha
    rw [hmk] at ha
    obtain rfl := Except.ok.inj ha
    exact ⟨rfl, rfl⟩
  · intro x y t hft br hbr p hp
    have hft' : (catDim2 x y).bind (fun input => input.mapM
        (fun row => row.mapM
          (NP.mkMLPEncoder x_dim y_dim (Sum.inl r) h_dim w1 w2 w3).input_to_rs))
        = some t := hft
    obtain ⟨input, hinput, hmap⟩ := Option.bind_eq_some.1 hft'
    obtain ⟨row, hrow, hrm⟩ := mapM_some_mem _ input t hmap br hbr
    obtain ⟨v, hv, hpoint⟩ := mapM_some_mem _ row br hrm p hp
    exact reshapeLast_some_shape r 1
      ((NP.mkMLPEncoder x_dim y_dim (Sum.inl r) h_dim w1 w2 w3).flatOut v)
      p hpoint
  · intro a ha squeeze1 squeeze2 attn u1 u2 u3 x y t hft br hbr p hp
    rw [hmk] at ha
    obtain rfl := Except.ok.inj ha
    have hft' : (catDim2 x y).bind (fun catted =>
        (attn (squeeze2 ((squeeze1 catted).map (fun row => row.map (fun v =>
          linearApply u3 (reluVec (linearApply u2
            (reluVec (linearApply u1 v))))))))).mapM
          (fun row => row.mapM (reshapeLast r 1))) = some t := hft
    obtain ⟨catted, hc, hmap⟩ := Option.bind_eq_some.1 hft'
    obtain ⟨row, hrow, hrm⟩ := mapM_some_mem _ _ t hmap br hbr
    obtain ⟨v, hv, hpoint⟩ := mapM_some_mem _ row br hrm p hp
    exact reshapeLast_some_shape r 1 v p hpoint

theorem integer_rs_dim_normalization_witness :
    (NP.mkMLPEncoder 1 1 (Sum.inl 2) 1 ⟨[], []⟩ ⟨[], []⟩ ⟨[], []⟩).rs_dim
        = (2, 1)
    ∧ ((⟨1, 1, (2, 1), 1, 2 * 1, 1⟩ :
          NP.AttentionEncoder).n_attn_heads = 1
        ∧ (⟨1, 1, (2, 1), 1, 2 * 1, 1⟩ :
          NP.AttentionEncoder).rs_dim = (2, 1))
    ∧ (∀ br ∈ ([] : List (List (List (List ℚ)))), ∀ p ∈ br,
        p.length = 2 ∧ ∀ q ∈ p, q.length = 1)
    ∧ (∀ br ∈ ([] : List (List (List (List ℚ)))), ∀ p ∈ br,
        p.length = 2 ∧ ∀ q ∈ p, q.length = 1) := by
  obtain ⟨h1, hA, hM, hAF⟩ :=
    integer_rs_dim_normalization 1 1 2 1 ⟨[], []⟩ ⟨[], []⟩ ⟨[], []⟩
  exact ⟨h1, hA _ rfl, hM [] [] [] rfl,
    hAF _ rfl id id id ⟨[], []⟩ ⟨[], []⟩ ⟨[], []⟩ [] [] [] rfl⟩
